import Mathlib

/-!
Verification of the `encrust` DES block cipher and ARC4 stream cipher.

The Rust source is embedded shallowly: `u64` values become `Nat` with
explicit bounds (`< 2 ^ 64` etc.), wrapping `u8` arithmetic becomes
`% 256`, and every function whose Rust body contains an `assert!`
returns `Option` (`none` models the panic).  Pure `...Pure` companions
compute the value produced when the assertions pass.
-/

namespace Encrust

/-- Initial 64-bit block permutation table (src/block/des/permutation_tables.rs). -/
def INITIAL_PERMUTATION : List Nat := [
  58, 50, 42, 34, 26, 18, 10, 2,
  60, 52, 44, 36, 28, 20, 12, 4,
  62, 54, 46, 38, 30, 22, 14, 6,
  64, 56, 48, 40, 32, 24, 16, 8,
  57, 49, 41, 33, 25, 17, 9, 1,
  59, 51, 43, 35, 27, 19, 11, 3,
  61, 53, 45, 37, 29, 21, 13, 5,
  63, 55, 47, 39, 31, 23, 15, 7]

/-- Final 64-bit block permutation table, inverse of `INITIAL_PERMUTATION`. -/
def FINAL_PERMUTATION : List Nat := [
  40, 8, 48, 16, 56, 24, 64, 32,
  39, 7, 47, 15, 55, 23, 63, 31,
  38, 6, 46, 14, 54, 22, 62, 30,
  37, 5, 45, 13, 53, 21, 61, 29,
  36, 4, 44, 12, 52, 20, 60, 28,
  35, 3, 43, 11, 51, 19, 59, 27,
  34, 2, 42, 10, 50, 18, 58, 26,
  33, 1, 41, 9, 49, 17, 57, 25]

/-- Permutated Choice 1, 64-to-56 key compression table. -/
def PC_1 : List Nat := [
  57, 49, 41, 33, 25, 17, 9,
  1, 58, 50, 42, 34, 26, 18,
  10, 2, 59, 51, 43, 35, 27,
  19, 11, 3, 60, 52, 44, 36,
  63, 55, 47, 39, 31, 23, 15,
  7, 62, 54, 46, 38, 30, 22,
  14, 6, 61, 53, 45, 37, 29,
  21, 13, 5, 28, 20, 12, 4]

/-- Permutated Choice 2, 56-to-48 key compression table. -/
def PC_2 : List Nat := [
  14, 17, 11, 24, 1, 5, 3, 28,
  15, 6, 21, 10, 23, 19, 12, 4,
  26, 8, 16, 7, 27, 20, 13, 2,
  41, 52, 31, 37, 47, 55, 30, 40,
  51, 45, 33, 48, 44, 49, 39, 56,
  34, 53, 46, 42, 50, 36, 29, 32]

/-- Modelled from the spec: the 32-to-48 expansion table `E` used inside the
round function is imported by the cipher but its defining module is absent
from the sources; the spec fixes it as the DES standard expansion table,
which intentionally duplicates bits. -/
def E : List Nat := [
  32, 1, 2, 3, 4, 5,
  4, 5, 6, 7, 8, 9,
  8, 9, 10, 11, 12, 13,
  12, 13, 14, 15, 16, 17,
  16, 17, 18, 19, 20, 21,
  20, 21, 22, 23, 24, 25,
  24, 25, 26, 27, 28, 29,
  28, 29, 30, 31, 32, 1]

/-- Modelled from the spec: the 32-to-32 output permutation `P` of the round
function is imported by the cipher but absent from the sources; the spec
fixes it as the DES standard `P` table. -/
def P : List Nat := [
  16, 7, 20, 21,
  29, 12, 28, 17,
  1, 15, 23, 26,
  5, 18, 31, 10,
  2, 8, 24, 14,
  32, 27, 3, 9,
  19, 13, 30, 6,
  22, 11, 4, 25]

/-- Modelled from the spec: the eight 64-entry substitution boxes `S` are
imported from a module absent from the sources; the spec fixes them as the
DES standard S-boxes (row-major, `index = 16*row + col`).  The values below
agree with the repository's own substitution test vectors. -/
def S : List (List Nat) := [
  [14, 4, 13, 1, 2, 15, 11, 8, 3, 10, 6, 12, 5, 9, 0, 7,
   0, 15, 7, 4, 14, 2, 13, 1, 10, 6, 12, 11, 9, 5, 3, 8,
   4, 1, 14, 8, 13, 6, 2, 11, 15, 12, 9, 7, 3, 10, 5, 0,
   15, 12, 8, 2, 4, 9, 1, 7, 5, 11, 3, 14, 10, 0, 6, 13],
  [15, 1, 8, 14, 6, 11, 3, 4, 9, 7, 2, 13, 12, 0, 5, 10,
   3, 13, 4, 7, 15, 2, 8, 14, 12, 0, 1, 10, 6, 9, 11, 5,
   0, 14, 7, 11, 10, 4, 13, 1, 5, 8, 12, 6, 9, 3, 2, 15,
   13, 8, 10, 1, 3, 15, 4, 2, 11, 6, 7, 12, 0, 5, 14, 9],
  [10, 0, 9, 14, 6, 3, 15, 5, 1, 13, 12, 7, 11, 4, 2, 8,
   13, 7, 0, 9, 3, 4, 6, 10, 2, 8, 5, 14, 12, 11, 15, 1,
   13, 6, 4, 9, 8, 15, 3, 0, 11, 1, 2, 12, 5, 10, 14, 7,
   1, 10, 13, 0, 6, 9, 8, 7, 4, 15, 14, 3, 11, 5, 2, 12],
  [7, 13, 14, 3, 0, 6, 9, 10, 1, 2, 8, 5, 11, 12, 4, 15,
   13, 8, 11, 5, 6, 15, 0, 3, 4, 7, 2, 12, 1, 10, 14, 9,
   10, 6, 9, 0, 12, 11, 7, 13, 15, 1, 3, 14, 5, 2, 8, 4,
   3, 15, 0, 6, 10, 1, 13, 8, 9, 4, 5, 11, 12, 7, 2, 14],
  [2, 12, 4, 1, 7, 10, 11, 6, 8, 5, 3, 15, 13, 0, 14, 9,
   14, 11, 2, 12, 4, 7, 13, 1, 5, 0, 15, 10, 3, 9, 8, 6,
   4, 2, 1, 11, 10, 13, 7, 8, 15, 9, 12, 5, 6, 3, 0, 14,
   11, 8, 12, 7, 1, 14, 2, 13, 6, 15, 0, 9, 10, 4, 5, 3],
  [12, 1, 10, 15, 9, 2, 6, 8, 0, 13, 3, 4, 14, 7, 5, 11,
   10, 15, 4, 2, 7, 12, 9, 5, 6, 1, 13, 14, 0, 11, 3, 8,
   9, 14, 15, 5, 2, 8, 12, 3, 7, 0, 4, 10, 1, 13, 11, 6,
   4, 3, 2, 12, 9, 5, 15, 10, 11, 14, 1, 7, 6, 0, 8, 13],
  [4, 11, 2, 14, 15, 0, 8, 13, 3, 12, 9, 7, 5, 10, 6, 1,
   13, 0, 11, 7, 4, 9, 1, 10, 14, 3, 5, 12, 2, 15, 8, 6,
   1, 4, 11, 13, 12, 3, 7, 14, 10, 15, 6, 8, 0, 5, 9, 2,
   6, 11, 13, 8, 1, 4, 10, 7, 9, 5, 0, 15, 14, 2, 3, 12],
  [13, 2, 8, 4, 6, 15, 11, 1, 10, 9, 3, 14, 5, 0, 12, 7,
   1, 15, 13, 8, 10, 3, 7, 4, 12, 5, 6, 11, 0, 14, 9, 2,
   7, 11, 4, 1, 9, 12, 14, 2, 0, 6, 10, 13, 15, 3, 5, 8,
   2, 1, 14, 7, 4, 10, 8, 13, 15, 12, 9, 0, 3, 5, 6, 11]]

/-- Mask of the low 28 bits (src constant `MASK_RIGHT_28_BIT`). -/
def MASK_RIGHT_28_BIT : Nat := (1 <<< 28) - 1

/-- Mask of bits 28..55 (src constant `MASK_LEFT_28_BIT`). -/
def MASK_LEFT_28_BIT : Nat := ((1 <<< 56) - 1) ^^^ MASK_RIGHT_28_BIT

/-- Mask of the low 32 bits (src constant `MASK_RIGHT_32_BIT`). -/
def MASK_RIGHT_32_BIT : Nat := (1 <<< 32) - 1

/-- Mask of bits 32..63 (src constant `MASK_LEFT_32_BIT`). -/
def MASK_LEFT_32_BIT : Nat := ((2 ^ 64) - 1) ^^^ MASK_RIGHT_32_BIT

/-- Loop body of `permutate`: look up one input bit and push it onto the
accumulated result. -/
def permStep (k ksize : Nat) (r : Nat) (p : Nat) : Nat :=
  (r <<< 1) ||| ((k >>> (ksize - p)) &&& 1)

/-- Value computed by `permutate` once its width assertion has passed. -/
def permutatePure (k : Nat) (tab : List Nat) (ksize : Nat) : Nat :=
  tab.foldl (permStep k ksize) 0

/-- `fn permutate(k, permutation_vec, k_size)`: asserts `k < 2^k_size`
whenever `k_size < 64`, then emits the selected input bits MSB-first. -/
def permutate (k : Nat) (tab : List Nat) (ksize : Nat) : Option Nat :=
  if ksize < 64 then
    if k < 2 ^ ksize then some (permutatePure k tab ksize) else none
  else
    some (permutatePure k tab ksize)

/-- One iteration of the `rotate_left` loop body. -/
def rotStep (k : Nat) : Nat :=
  ((k <<< 1) &&& MASK_RIGHT_28_BIT) ||| ((k >>> 27) &&& 1)

/-- Value computed by `rotate_left` once its 28-bit assertion has passed. -/
def rotateLeftPure (k : Nat) : Nat → Nat
  | 0 => k
  | n + 1 => rotateLeftPure (rotStep k) n

/-- `fn rotate_left(k, n)`: asserts `k < 2^28`, then shifts left `n` times
re-inserting the leading bit at the bottom. -/
def rotate_left (k : Nat) (n : Nat) : Option Nat :=
  if k < 2 ^ 28 then some (rotateLeftPure k n) else none

/-- Body of the first `merge_halves` loop with `n` iterations left:
push bits `n-1, ..., 0` of `v` onto the accumulator. -/
def mergeBits (v : Nat) : Nat → Nat → Nat
  | 0, acc => acc
  | n + 1, acc => mergeBits v n ((acc <<< 1) ||| ((v >>> n) &&& 1))

/-- Value computed by `merge_halves` once its assertions pass. -/
def mergeHalvesPure (left right half : Nat) : Nat :=
  mergeBits right half (mergeBits left half 0)

/-- `fn merge_halves(left, right, half_size)`: asserts `half_size <= 32` and
that both halves fit in `half_size` bits, then concatenates them. -/
def merge_halves (left right : Nat) (half : Nat) : Option Nat :=
  if half ≤ 32 then
    if left < 2 ^ half ∧ right < 2 ^ half then
      some (mergeHalvesPure left right half)
    else none
  else none

/-- Per-round rotation amount of `rotate_key`
(`matches!(r, 0 | 1 | 8 | 15)`). -/
def rotCount (r : Nat) : Nat :=
  if r = 0 ∨ r = 1 ∨ r = 8 ∨ r = 15 then 1 else 2

/-- Value computed by `rotate_key` once every assertion passes. -/
def rotateKeyPure (k : Nat) (r : Nat) : Nat :=
  mergeHalvesPure
    (rotateLeftPure ((k &&& MASK_LEFT_28_BIT) >>> 28) (rotCount r))
    (rotateLeftPure (k &&& MASK_RIGHT_28_BIT) (rotCount r))
    28

/-- `fn rotate_key(k, r)`: asserts `r < 16`, splits the 56-bit key, rotates
both 28-bit halves by the round-dependent amount and merges them back. -/
def rotate_key (k : Nat) (r : Nat) : Option Nat :=
  if r < 16 then do
    let left ← rotate_left ((k &&& MASK_LEFT_28_BIT) >>> 28) (rotCount r)
    let right ← rotate_left (k &&& MASK_RIGHT_28_BIT) (rotCount r)
    merge_halves left right 28
  else none

/-- `fn substitute(chunk, s_box)`: row from the outer two bits, column from
the middle four bits, row-major lookup. -/
def substitute (chunk : Nat) (sbox : List Nat) : Nat :=
  sbox.getD (16 * (((chunk >>> 4) &&& 2) ||| (chunk &&& 1)) + ((chunk &&& 31) >>> 1)) 0

/-- `fn split_6bit_chunks(block)`: eight 6-bit chunks, leftmost first. -/
def split_6bit_chunks (block : Nat) : List Nat :=
  (List.range 8).map (fun i => (block >>> (48 - (i + 1) * 6)) &&& 63)

/-- `fn merge_4bit_chunks(chunks)`: concatenate 4-bit chunks, leftmost first. -/
def merge_4bit_chunks (chunks : List Nat) : Nat :=
  chunks.foldl (fun r c => (r <<< 4) ||| c) 0

/-- `fn apply_f(right, round_key)`: the DES round function. -/
def apply_f (right roundKey : Nat) : Option Nat := do
  let expanded ← permutate right E 32
  let keyed := expanded ^^^ roundKey
  let chunks := split_6bit_chunks keyed
  let subbed := List.zipWith substitute chunks S
  permutate (merge_4bit_chunks subbed) P 32

/-- Value computed by `apply_f` once every assertion passes. -/
def applyFPure (right roundKey : Nat) : Nat :=
  permutatePure
    (merge_4bit_chunks
      (List.zipWith substitute
        (split_6bit_chunks (permutatePure right E 32 ^^^ roundKey)) S))
    P 32

/-- The 16-round Feistel loop of `encrypt`/`decrypt`:
`(left, right) = (right, left ^ apply_f(right, key))` for each key in order. -/
def desRounds (rks : List Nat) (left right : Nat) : Option (Nat × Nat) :=
  match rks with
  | [] => some (left, right)
  | k :: ks => (apply_f right k).bind (fun f => desRounds ks right (left ^^^ f))

/-- The key-rotation loop of `Des::new`: starting from 56-bit state `s` at
round `i`, produce the next `n` post-rotation 56-bit states. -/
def keyStates (s : Nat) (i : Nat) : Nat → Option (List Nat)
  | 0 => some []
  | n + 1 => do
    let s1 ← rotate_key s i
    let rest ← keyStates s1 (i + 1) n
    some (s1 :: rest)

/-- `Des::new(k)`: PC-1, sixteen key rotations, then PC-2 on every
post-rotation state; yields the 16 round keys. -/
def desNew (k : Nat) : Option (List Nat) := do
  let key56 ← permutate k PC_1 64
  let pre ← keyStates key56 0 16
  pre.mapM (fun s => permutate s PC_2 56)

/-- `Des::encrypt`: initial permutation, split, 16 forward Feistel rounds,
final swap, merge, final permutation. -/
def desEncrypt (rks : List Nat) (block : Nat) : Option Nat := do
  let ip ← permutate block INITIAL_PERMUTATION 64
  let left := (ip &&& MASK_LEFT_32_BIT) >>> 32
  let right := ip &&& MASK_RIGHT_32_BIT
  let p ← desRounds rks left right
  let merged ← merge_halves p.2 p.1 32
  permutate merged FINAL_PERMUTATION 64

/-- `Des::decrypt`: same as `encrypt` with the round keys walked in
reverse order. -/
def desDecrypt (rks : List Nat) (block : Nat) : Option Nat := do
  let ip ← permutate block INITIAL_PERMUTATION 64
  let left := (ip &&& MASK_LEFT_32_BIT) >>> 32
  let right := ip &&& MASK_RIGHT_32_BIT
  let p ← desRounds rks.reverse left right
  let merged ← merge_halves p.2 p.1 32
  permutate merged FINAL_PERMUTATION 64

/-- Claim-side characterization: genuine circular left rotation of a 28-bit
field, wrapping the vacated high bits into the low end. -/
def rotl28Spec (h n : Nat) : Nat :=
  ((h <<< n) &&& (2 ^ 28 - 1)) ||| (h >>> (28 - n))

/-- Claim-side characterization of the key-schedule state machine: the 56-bit
state after `PC-1` (index 0) and after each rotation round. -/
def schedState (k : Nat) : Nat → Nat
  | 0 => permutatePure k PC_1 64
  | i + 1 => rotateKeyPure (schedState k i) i

/-- Iterated pure key rotation starting at round index `i`. -/
def rotIter (s i : Nat) : Nat → Nat
  | 0 => s
  | j + 1 => rotateKeyPure (rotIter s i j) (i + j)

/-- ARC4 cipher state (src/stream/arc4.rs). -/
structure Arc4 where
  i : Nat
  j : Nat
  s : List Nat

/-- `slice::swap`: exchange the elements at indices `a` and `b`. -/
def swapL (s : List Nat) (a b : Nat) : List Nat :=
  (s.set a (s.getD b 0)).set b (s.getD a 0)

/-- The KSA loop of `AllegedRc4::new` with `n` iterations left at index `i`. -/
def ksaLoop (t : List Nat) (s : List Nat) (j : Nat) (i : Nat) : Nat → List Nat
  | 0 => s
  | n + 1 =>
    let j2 := (j + s.getD i 0 + t.getD i 0) % 256
    ksaLoop t (swapL s i j2) j2 (i + 1) n

/-- `AllegedRc4::new(k)`: panics on an empty key, otherwise repeats the key
to 256 bytes and scrambles the identity table. -/
def arc4New (k : List Nat) : Option Arc4 :=
  if k = [] then none
  else
    let t := (List.range 256).map (fun i => k.getD (i % k.length) 0)
    let s := List.range 256
    some ⟨0, 0, ksaLoop t s 0 0 256⟩

/-- `AllegedRc4::process_byte(pb)`: advance the PRGA state and XOR the
generated keystream byte into `pb`. -/
def processByte (st : Arc4) (pb : Nat) : Arc4 × Nat :=
  let i := (st.i + 1) % 256
  let j := (st.j + st.s.getD i 0) % 256
  let s := swapL st.s i j
  let t := (s.getD i 0 + s.getD j 0) % 256
  let k := s.getD t 0
  (⟨i, j, s⟩, pb ^^^ k)

/-- `AllegedRc4::apply_keystream(buf)`: process every byte in order,
returning the final state and the transformed buffer. -/
def applyKeystream (st : Arc4) (buf : List Nat) : Arc4 × List Nat :=
  match buf with
  | [] => (st, [])
  | b :: bs =>
    let pc := processByte st b
    let rest := applyKeystream pc.1 bs
    (rest.1, pc.2 :: rest.2)

/-- Bit `j` of `2^i * a + b` with `b < 2^i`: low bits come from `b`,
high bits from `a`. -/
theorem testBit_mulAdd (a b i j : Nat) (hb : b < 2 ^ i) :
    (2 ^ i * a + b).testBit j = if j < i then b.testBit j else a.testBit (j - i) := by
  rcases Nat.lt_or_ge j i with hj | hj
  · rw [if_pos hj]
    have key : (2 ^ i * a + b) / 2 ^ j % 2 = b / 2 ^ j % 2 := by
      have e1 : 2 ^ i * a + b = 2 ^ j * (2 * (2 ^ (i - j - 1) * a)) + b := by
        have e2 : (2 : Nat) ^ j * (2 * 2 ^ (i - j - 1)) = 2 ^ i := by
          rw [← pow_succ', ← pow_add]
          congr 1
          omega
        calc 2 ^ i * a + b = 2 ^ j * (2 * 2 ^ (i - j - 1)) * a + b := by rw [e2]
          _ = 2 ^ j * (2 * (2 ^ (i - j - 1) * a)) + b := by ring
      rw [e1, Nat.mul_add_div (Nat.pos_pow_of_pos j (by norm_num)),
        Nat.mul_add_mod]
    rw [Nat.testBit_to_div_mod, Nat.testBit_to_div_mod, key]
  · rw [if_neg (Nat.not_lt.mpr hj)]
    have key : (2 ^ i * a + b) / 2 ^ j = a / 2 ^ (j - i) := by
      have e1 : (2 : Nat) ^ j = 2 ^ i * 2 ^ (j - i) := by
        rw [← pow_add]
        congr 1
        omega
      rw [e1, ← Nat.div_div_eq_div_mul,
        Nat.mul_add_div (Nat.pos_pow_of_pos i (by norm_num)),
        Nat.div_eq_of_lt hb, Nat.add_zero]
    rw [Nat.testBit_to_div_mod, Nat.testBit_to_div_mod, key]

/-- Bitwise `or` of a shifted value and a small value is their sum. -/
theorem or_eq_add_of_lt (a b k : Nat) (hb : b < 2 ^ k) :
    (2 ^ k * a) ||| b = 2 ^ k * a + b := by
  apply Nat.eq_of_testBit_eq
  intro j
  rw [Nat.testBit_or, testBit_mulAdd a b k j hb]
  rcases Nat.lt_or_ge j k with hj | hj
  · have h1 : (2 ^ k * a).testBit j = false := by
      rw [mul_comm, ← Nat.shiftLeft_eq, Nat.testBit_shiftLeft]
      simp [Nat.not_le.mpr hj]
    simp [h1, hj]
  · have hbf : b.testBit j = false :=
      Nat.testBit_eq_false_of_lt
        (lt_of_lt_of_le hb (Nat.pow_le_pow_right (by norm_num) hj))
    have h1 : (2 ^ k * a).testBit j = a.testBit (j - k) := by
      rw [mul_comm, ← Nat.shiftLeft_eq, Nat.testBit_shiftLeft]
      simp [hj]
    simp [h1, hbf, Nat.not_lt.mpr hj]

/-- The doubled-accumulator step of the bit-pushing loops. -/
theorem two_mul_or_bit (a b : Nat) (hb : b < 2) : (a <<< 1) ||| b = 2 * a + b := by
  have := or_eq_add_of_lt a b 1 (by simpa using hb)
  simpa [Nat.shiftLeft_eq, mul_comm] using this

/-- Masking with an all-ones low mask is reduction modulo a power of two. -/
theorem and_ones (a w : Nat) : a &&& (2 ^ w - 1) = a % 2 ^ w :=
  Nat.and_pow_two_sub_one_eq_mod a w

/-- Masking with the high half of a `2*w`-bit field and shifting down
extracts the high `w` bits. -/
theorem and_mask_left_shift (a w : Nat) :
    (a &&& ((2 ^ (2 * w) - 1) ^^^ (2 ^ w - 1))) >>> w = (a >>> w) % 2 ^ w := by
  apply Nat.eq_of_testBit_eq
  intro j
  rw [Nat.testBit_shiftRight, Nat.testBit_and, Nat.testBit_xor,
    Nat.testBit_two_pow_sub_one, Nat.testBit_two_pow_sub_one,
    ← and_ones, Nat.testBit_and, Nat.testBit_two_pow_sub_one,
    Nat.testBit_shiftRight]
  by_cases h : j < w
  · have h1 : w + j < 2 * w := by omega
    have h2 : ¬ w + j < w := by omega
    simp [h, h1, h2]
  · have h1 : ¬ w + j < 2 * w := by omega
    have h2 : ¬ w + j < w := by omega
    simp [h, h1, h2]

/-- A looked-up input bit is 0 or 1. -/
theorem bit_lt_two (k s : Nat) : (k >>> s) &&& 1 < 2 := by
  rw [Nat.and_one_is_mod]
  exact Nat.mod_lt _ (by norm_num)

/-- The `permutate` fold from an arbitrary accumulator shifts the
accumulator past the bits contributed by the table. -/
theorem foldl_permStep (k ksize : Nat) (tab : List Nat) : ∀ acc : Nat,
    tab.foldl (permStep k ksize) acc = acc * 2 ^ tab.length + permutatePure k tab ksize := by
  induction tab with
  | nil =>
    intro acc
    simp [permutatePure]
  | cons t ts ih =>
    intro acc
    have hstep : ∀ r : Nat, permStep k ksize r t = 2 * r + ((k >>> (ksize - t)) &&& 1) :=
      fun r => two_mul_or_bit r _ (bit_lt_two k (ksize - t))
    have hp : permutatePure k (t :: ts) ksize
        = ((k >>> (ksize - t)) &&& 1) * 2 ^ ts.length + permutatePure k ts ksize := by
      rw [permutatePure, List.foldl_cons, ih, hstep]
      ring_nf
    rw [List.foldl_cons, ih, hp, hstep, List.length_cons]
    ring

/-- Peeling one table entry off `permutatePure`. -/
theorem permutatePure_cons (k ksize t : Nat) (ts : List Nat) :
    permutatePure k (t :: ts) ksize
      = ((k >>> (ksize - t)) &&& 1) * 2 ^ ts.length + permutatePure k ts ksize := by
  rw [permutatePure, List.foldl_cons,
    show permStep k ksize 0 t = 2 * 0 + ((k >>> (ksize - t)) &&& 1) from
      two_mul_or_bit 0 _ (bit_lt_two k (ksize - t)),
    foldl_permStep]
  ring_nf

/-- The permuted value fits in as many bits as the table has entries. -/
theorem permutatePure_lt (k ksize : Nat) (tab : List Nat) :
    permutatePure k tab ksize < 2 ^ tab.length := by
  induction tab with
  | nil =>
    simp [permutatePure]
  | cons t ts ih =>
    rw [permutatePure_cons, List.length_cons, pow_succ]
    have hb := bit_lt_two k (ksize - t)
    have hb' : (k >>> (ksize - t)) &&& 1 = 0 ∨ (k >>> (ksize - t)) &&& 1 = 1 := by omega
    set x := (2 : Nat) ^ ts.length
    rcases hb' with h | h <;> rw [h] <;> omega

/-- Output bit `j` of the permuted value is the input bit selected by the
table entry at output position `j` (counting output bits LSB-first). -/
theorem permutatePure_testBit (k ksize : Nat) (tab : List Nat) : ∀ j, j < tab.length →
    (permutatePure k tab ksize).testBit j
      = k.testBit (ksize - tab.getD (tab.length - 1 - j) 0) := by
  induction tab with
  | nil =>
    intro j hj
    simp at hj
  | cons t ts ih =>
    intro j hj
    have hb := bit_lt_two k (ksize - t)
    have hV := permutatePure_lt k ksize ts
    rw [permutatePure_cons,
      show ((k >>> (ksize - t)) &&& 1) * 2 ^ ts.length
          = 2 ^ ts.length * ((k >>> (ksize - t)) &&& 1) from mul_comm _ _,
      testBit_mulAdd _ _ _ _ hV]
    rcases Nat.lt_or_ge j ts.length with hlt | hge
    · rw [if_pos hlt, ih j hlt]
      have hidx : (t :: ts).length - 1 - j = (ts.length - 1 - j) + 1 := by
        simp only [List.length_cons]
        omega
      rw [hidx, List.getD_cons_succ]
    · have hj' : j = ts.length := by
        simp only [List.length_cons] at hj
        omega
      subst hj'
      rw [if_neg (by omega), Nat.sub_self]
      have hidx : (t :: ts).length - 1 - ts.length = 0 := by
        simp only [List.length_cons]
        omega
      rw [hidx, List.getD_cons_zero]
      have hbit : (k >>> (ksize - t)) &&& 1 = k / 2 ^ (ksize - t) % 2 := by
        rw [Nat.shiftRight_eq_div_pow, Nat.and_one_is_mod]
      rw [Nat.testBit_to_div_mod, Nat.testBit_to_div_mod, hbit]
      norm_num

/-- Applying two mutually inverse 64-entry permutation tables in sequence is
the identity on 64-bit values. -/
theorem perm_comp_inv (t1 t2 : List Nat) (h1 : t1.length = 64) (h2 : t2.length = 64)
    (hv2 : ∀ p ∈ t2, 1 ≤ p ∧ p ≤ 64)
    (hinv : ∀ i, i < 64 → t1.getD (t2.getD i 0 - 1) 0 = i + 1)
    (x : Nat) (hx : x < 2 ^ 64) :
    permutatePure (permutatePure x t1 64) t2 64 = x := by
  apply Nat.eq_of_testBit_eq
  intro j
  rcases Nat.lt_or_ge j 64 with hj | hj
  · rw [permutatePure_testBit _ _ t2 j (by omega)]
    have hmem : t2.getD (t2.length - 1 - j) 0 ∈ t2 := by
      rw [List.getD_eq_getElem t2 0 (by omega)]
      exact List.getElem_mem _
    obtain ⟨hp1, hp64⟩ := hv2 _ hmem
    rw [permutatePure_testBit _ _ t1 _ (by omega)]
    have hidx : t1.length - 1 - (64 - t2.getD (t2.length - 1 - j) 0)
        = t2.getD (t2.length - 1 - j) 0 - 1 := by omega
    rw [hidx, hinv (t2.length - 1 - j) (by omega)]
    have : 64 - (t2.length - 1 - j + 1) = j := by omega
    rw [this]
  · have hlt : permutatePure (permutatePure x t1 64) t2 64 < 2 ^ 64 := by
      have := permutatePure_lt (permutatePure x t1 64) 64 t2
      rwa [h2] at this
    rw [Nat.testBit_eq_false_of_lt
        (lt_of_lt_of_le hlt (Nat.pow_le_pow_right (by norm_num) hj)),
      Nat.testBit_eq_false_of_lt
        (lt_of_lt_of_le hx (Nat.pow_le_pow_right (by norm_num) hj))]

/-- The bit-pushing loop of `merge_halves` appends the low `n` bits of `v`
to the accumulator. -/
theorem mergeBits_eq (v : Nat) : ∀ (n : Nat) (acc : Nat),
    mergeBits v n acc = acc * 2 ^ n + v % 2 ^ n := by
  intro n
  induction n with
  | zero =>
    intro acc
    simp [mergeBits, Nat.mod_one]
  | succ n ih =>
    intro acc
    rw [mergeBits, ih, two_mul_or_bit acc _ (bit_lt_two v n)]
    have hbit : (v >>> n) &&& 1 = v / 2 ^ n % 2 := by
      rw [Nat.shiftRight_eq_div_pow, Nat.and_one_is_mod]
    rw [hbit, Nat.mod_pow_succ]
    ring

/-- `merge_halves` body concatenates two in-range halves. -/
theorem mergeHalvesPure_eq (l r half : Nat) (hl : l < 2 ^ half) (hr : r < 2 ^ half) :
    mergeHalvesPure l r half = l * 2 ^ half + r := by
  rw [mergeHalvesPure, mergeBits_eq, mergeBits_eq]
  simp [Nat.mod_eq_of_lt hl, Nat.mod_eq_of_lt hr]

/-- `merge_halves` succeeds on in-range halves and concatenates them. -/
theorem merge_halves_ok (l r half : Nat) (hh : half ≤ 32)
    (hl : l < 2 ^ half) (hr : r < 2 ^ half) :
    merge_halves l r half = some (l * 2 ^ half + r) := by
  rw [merge_halves, if_pos hh, if_pos ⟨hl, hr⟩, mergeHalvesPure_eq l r half hl hr]

/-- `permutate` succeeds when the input fits the declared width (or the
width is the full 64 bits, where the source skips the assertion). -/
theorem permutate_ok (k : Nat) (tab : List Nat) (ksize : Nat)
    (h : k < 2 ^ ksize ∨ 64 ≤ ksize) :
    permutate k tab ksize = some (permutatePure k tab ksize) := by
  rw [permutate]
  rcases Nat.lt_or_ge ksize 64 with h64 | h64
  · rw [if_pos h64, if_pos (by omega)]
  · rw [if_neg (by omega)]

/-- The low-28-bit mask extracts the value modulo `2^28`. -/
theorem and_mask_r28 (a : Nat) : a &&& MASK_RIGHT_28_BIT = a % 2 ^ 28 := by
  have h : MASK_RIGHT_28_BIT = 2 ^ 28 - 1 := by norm_num [MASK_RIGHT_28_BIT, Nat.shiftLeft_eq]
  rw [h, and_ones]

/-- The high-28-bit mask followed by the shift extracts the upper half of a
56-bit value. -/
theorem and_mask_l28 (a : Nat) : (a &&& MASK_LEFT_28_BIT) >>> 28 = (a >>> 28) % 2 ^ 28 := by
  have h : MASK_LEFT_28_BIT = (2 ^ (2 * 28) - 1) ^^^ (2 ^ 28 - 1) := by
    norm_num [MASK_LEFT_28_BIT, MASK_RIGHT_28_BIT, Nat.shiftLeft_eq]
  rw [h, and_mask_left_shift]

/-- The low-32-bit mask extracts the value modulo `2^32`. -/
theorem and_mask_r32 (a : Nat) : a &&& MASK_RIGHT_32_BIT = a % 2 ^ 32 := by
  have h : MASK_RIGHT_32_BIT = 2 ^ 32 - 1 := by norm_num [MASK_RIGHT_32_BIT, Nat.shiftLeft_eq]
  rw [h, and_ones]

/-- The high-32-bit mask followed by the shift extracts the upper half of a
64-bit value. -/
theorem and_mask_l32 (a : Nat) : (a &&& MASK_LEFT_32_BIT) >>> 32 = (a >>> 32) % 2 ^ 32 := by
  have h : MASK_LEFT_32_BIT = (2 ^ (2 * 32) - 1) ^^^ (2 ^ 32 - 1) := by
    norm_num [MASK_LEFT_32_BIT, MASK_RIGHT_32_BIT, Nat.shiftLeft_eq]
  rw [h, and_mask_left_shift]

/-- One rotation step on a 28-bit value: shift out the top bit and re-insert
it at the bottom. -/
theorem rotStep_eq (k : Nat) (hk : k < 2 ^ 28) :
    rotStep k = 2 * (k % 2 ^ 27) + k / 2 ^ 27 := by
  rw [rotStep, and_mask_r28, Nat.shiftLeft_eq, pow_one, Nat.shiftRight_eq_div_pow,
    Nat.and_one_is_mod]
  have h1 : k * 2 % 2 ^ 28 = 2 * (k % 2 ^ 27) := by omega
  have h2 : k / 2 ^ 27 % 2 = k / 2 ^ 27 := by omega
  rw [h1, h2]
  have h3 : k / 2 ^ 27 < 2 := by omega
  calc 2 * (k % 2 ^ 27) ||| k / 2 ^ 27
      = 2 ^ 1 * (k % 2 ^ 27) ||| k / 2 ^ 27 := by norm_num
    _ = 2 ^ 1 * (k % 2 ^ 27) + k / 2 ^ 27 := or_eq_add_of_lt _ _ 1 (by omega)
    _ = 2 * (k % 2 ^ 27) + k / 2 ^ 27 := by norm_num

/-- A rotation step keeps the value inside 28 bits. -/
theorem rotStep_lt (k : Nat) (hk : k < 2 ^ 28) : rotStep k < 2 ^ 28 := by
  rw [rotStep_eq k hk]
  omega

/-- Iterated rotation steps keep the value inside 28 bits. -/
theorem rotateLeftPure_lt (n : Nat) : ∀ k, k < 2 ^ 28 → rotateLeftPure k n < 2 ^ 28 := by
  induction n with
  | zero =>
    intro k hk
    exact hk
  | succ n ih =>
    intro k hk
    exact ih _ (rotStep_lt k hk)

/-- A single rotation step agrees with the circular-rotation specification. -/
theorem rotateLeftPure_one (k : Nat) (hk : k < 2 ^ 28) :
    rotateLeftPure k 1 = rotl28Spec k 1 := by
  have hspec : rotl28Spec k 1 = 2 * (k % 2 ^ 27) + k / 2 ^ 27 := by
    rw [rotl28Spec, and_ones, Nat.shiftLeft_eq, pow_one, Nat.shiftRight_eq_div_pow]
    have h1 : k * 2 % 2 ^ 28 = 2 * (k % 2 ^ 27) := by omega
    rw [h1]
    calc 2 * (k % 2 ^ 27) ||| k / 2 ^ (28 - 1)
        = 2 ^ 1 * (k % 2 ^ 27) ||| k / 2 ^ 27 := by norm_num
      _ = 2 ^ 1 * (k % 2 ^ 27) + k / 2 ^ 27 := or_eq_add_of_lt _ _ 1 (by omega)
      _ = 2 * (k % 2 ^ 27) + k / 2 ^ 27 := by norm_num
  show rotateLeftPure (rotStep k) 0 = rotl28Spec k 1
  rw [rotateLeftPure, hspec, rotStep_eq k hk]

/-- Two rotation steps agree with the circular-rotation specification. -/
theorem rotateLeftPure_two (k : Nat) (hk : k < 2 ^ 28) :
    rotateLeftPure k 2 = rotl28Spec k 2 := by
  have hspec : rotl28Spec k 2 = 4 * (k % 2 ^ 26) + k / 2 ^ 26 := by
    rw [rotl28Spec, and_ones, Nat.shiftLeft_eq, Nat.shiftRight_eq_div_pow]
    have h1 : k * 2 ^ 2 % 2 ^ 28 = 4 * (k % 2 ^ 26) := by omega
    rw [h1]
    calc 4 * (k % 2 ^ 26) ||| k / 2 ^ (28 - 2)
        = 2 ^ 2 * (k % 2 ^ 26) ||| k / 2 ^ 26 := by norm_num
      _ = 2 ^ 2 * (k % 2 ^ 26) + k / 2 ^ 26 := or_eq_add_of_lt _ _ 2 (by omega)
      _ = 4 * (k % 2 ^ 26) + k / 2 ^ 26 := by norm_num
  show rotateLeftPure (rotStep k) 1 = rotl28Spec k 2
  show rotateLeftPure (rotStep (rotStep k)) 0 = rotl28Spec k 2
  rw [rotateLeftPure, hspec, rotStep_eq _ (rotStep_lt k hk), rotStep_eq k hk]
  omega

/-- `rotate_left` succeeds on 28-bit input. -/
theorem rotate_left_ok (k n : Nat) (hk : k < 2 ^ 28) :
    rotate_left k n = some (rotateLeftPure k n) := by
  rw [rotate_left, if_pos hk]

/-- The per-round rotation amount is 1 or 2. -/
theorem rotCount_cases (r : Nat) : rotCount r = 1 ∨ rotCount r = 2 := by
  rw [rotCount]
  split <;> simp

/-- The rotation loop agrees with the circular-rotation specification for
the amounts that occur in the key schedule. -/
theorem rotateLeftPure_spec (k n : Nat) (hk : k < 2 ^ 28) (hn : n = 1 ∨ n = 2) :
    rotateLeftPure k n = rotl28Spec k n := by
  rcases hn with h | h <;> subst h
  · exact rotateLeftPure_one k hk
  · exact rotateLeftPure_two k hk

/-- The circular-rotation specification stays inside 28 bits. -/
theorem rotl28Spec_lt (k n : Nat) (hk : k < 2 ^ 28) (hn : n = 1 ∨ n = 2) :
    rotl28Spec k n < 2 ^ 28 := by
  have h1 : rotateLeftPure k n < 2 ^ 28 := rotateLeftPure_lt n k hk
  rwa [rotateLeftPure_spec k n hk hn] at h1

/-- `rotate_key` on a valid round succeeds, computes the circular rotation
of both halves, and stays inside 56 bits. -/
theorem rotate_key_ok (k r : Nat) (hk : k < 2 ^ 56) (hr : r < 16) :
    rotate_key k r = some (rotateKeyPure k r) ∧
    rotateKeyPure k r
      = rotl28Spec (k / 2 ^ 28) (rotCount r) * 2 ^ 28
        + rotl28Spec (k % 2 ^ 28) (rotCount r) ∧
    rotateKeyPure k r < 2 ^ 56 := by
  have hhi : (k &&& MASK_LEFT_28_BIT) >>> 28 = k / 2 ^ 28 := by
    rw [and_mask_l28, Nat.shiftRight_eq_div_pow]
    exact Nat.mod_eq_of_lt (by omega)
  have hlo : k &&& MASK_RIGHT_28_BIT = k % 2 ^ 28 := and_mask_r28 k
  have hhilt : k / 2 ^ 28 < 2 ^ 28 := by omega
  have hlolt : k % 2 ^ 28 < 2 ^ 28 := by omega
  have hrc := rotCount_cases r
  have hL28 : rotateLeftPure (k / 2 ^ 28) (rotCount r) < 2 ^ 28 :=
    rotateLeftPure_lt _ _ hhilt
  have hR28 : rotateLeftPure (k % 2 ^ 28) (rotCount r) < 2 ^ 28 :=
    rotateLeftPure_lt _ _ hlolt
  have hpure : rotateKeyPure k r
      = rotateLeftPure (k / 2 ^ 28) (rotCount r) * 2 ^ 28
        + rotateLeftPure (k % 2 ^ 28) (rotCount r) := by
    rw [rotateKeyPure, hhi, hlo, mergeHalvesPure_eq _ _ _ hL28 hR28]
  refine ⟨?_, ?_, ?_⟩
  · rw [rotate_key, if_pos hr, hhi, hlo, rotate_left_ok _ _ hhilt,
      rotate_left_ok _ _ hlolt]
    show merge_halves _ _ 28 = _
    rw [merge_halves_ok _ _ 28 (by norm_num) hL28 hR28, hpure]
  · rw [hpure, rotateLeftPure_spec _ _ hhilt hrc, rotateLeftPure_spec _ _ hlolt hrc]
  · rw [hpure]
    omega

/-- `substitute` returns a 4-bit value whenever the box holds 4-bit values. -/
theorem substitute_lt (chunk : Nat) (sbox : List Nat) (hs : ∀ x ∈ sbox, x < 16) :
    substitute chunk sbox < 16 := by
  rw [substitute]
  rcases Nat.lt_or_ge
      (16 * (((chunk >>> 4) &&& 2) ||| (chunk &&& 1)) + ((chunk &&& 31) >>> 1))
      sbox.length with h | h
  · rw [List.getD_eq_getElem _ _ h]
    exact hs _ (List.getElem_mem h)
  · rw [List.getD_eq_default _ _ h]
    norm_num

/-- Every output of the substitution pass over the S-boxes is a 4-bit value. -/
theorem zipWith_substitute_lt : ∀ (as : List Nat) (bs : List (List Nat)),
    (∀ b ∈ bs, ∀ x ∈ b, x < 16) → ∀ c ∈ List.zipWith substitute as bs, c < 16 := by
  intro as
  induction as with
  | nil =>
    intro bs _ c hc
    simp at hc
  | cons a as ih =>
    intro bs hbs c hc
    cases bs with
    | nil => simp at hc
    | cons b bs =>
      rw [List.zipWith_cons_cons] at hc
      rcases List.mem_cons.mp hc with h | h
      · exact h ▸ substitute_lt a b (hbs b (List.mem_cons_self b bs))
      · exact ih bs (fun x hx => hbs x (List.mem_cons_of_mem _ hx)) c h

/-- The chunk-merging fold grows the accumulator by four bits per chunk. -/
theorem merge4_aux : ∀ (cs : List Nat) (acc m : Nat),
    (∀ c ∈ cs, c < 16) → acc < 2 ^ m →
    cs.foldl (fun r c => (r <<< 4) ||| c) acc < 2 ^ (m + 4 * cs.length) := by
  intro cs
  induction cs with
  | nil =>
    intro acc m _ h
    simpa using h
  | cons c cs ih =>
    intro acc m hc hacc
    rw [List.foldl_cons]
    have hstep : (acc <<< 4) ||| c < 2 ^ (m + 4) := by
      apply Nat.or_lt_two_pow
      · rw [Nat.shiftLeft_eq, pow_add]
        exact Nat.mul_lt_mul_of_lt_of_le hacc (le_refl _) (by norm_num)
      · calc c < 16 := hc c (List.mem_cons_self c cs)
          _ = 2 ^ 4 := by norm_num
          _ ≤ 2 ^ (m + 4) := Nat.pow_le_pow_right (by norm_num) (by omega)
    have hres := ih _ (m + 4) (fun x hx => hc x (List.mem_cons_of_mem _ hx)) hstep
    have hexp : m + 4 + 4 * cs.length = m + 4 * (c :: cs).length := by
      simp only [List.length_cons]
      ring
    rwa [hexp] at hres

/-- `merge_4bit_chunks` of 4-bit chunks fits in four bits per chunk. -/
theorem merge_4bit_lt (cs : List Nat) (hc : ∀ c ∈ cs, c < 16) :
    merge_4bit_chunks cs < 2 ^ (4 * cs.length) := by
  have h := merge4_aux cs 0 0 hc (by norm_num)
  simpa using h

/-- `split_6bit_chunks` always yields eight chunks. -/
theorem split_6bit_length (b : Nat) : (split_6bit_chunks b).length = 8 := by
  simp [split_6bit_chunks]

/-- Every entry of every modelled S-box is a 4-bit value. -/
theorem S_entries_lt : ∀ b ∈ S, ∀ x ∈ b, x < 16 := by decide

/-- The round function succeeds on a 32-bit half-block and returns a 32-bit
value, for any round key. -/
theorem apply_f_ok (right rk : Nat) (hr : right < 2 ^ 32) :
    apply_f right rk = some (applyFPure right rk) ∧ applyFPure right rk < 2 ^ 32 := by
  have hE : permutate right E 32 = some (permutatePure right E 32) :=
    permutate_ok _ _ _ (Or.inl hr)
  have hsublt : ∀ c ∈ List.zipWith substitute
      (split_6bit_chunks (permutatePure right E 32 ^^^ rk)) S, c < 16 :=
    zipWith_substitute_lt _ _ S_entries_lt
  have hlen : (List.zipWith substitute
      (split_6bit_chunks (permutatePure right E 32 ^^^ rk)) S).length = 8 := by
    rw [List.length_zipWith, split_6bit_length]
    rfl
  have hmerged : merge_4bit_chunks (List.zipWith substitute
      (split_6bit_chunks (permutatePure right E 32 ^^^ rk)) S) < 2 ^ 32 := by
    have h := merge_4bit_lt _ hsublt
    rw [hlen] at h
    exact h
  have hP := permutate_ok (merge_4bit_chunks (List.zipWith substitute
      (split_6bit_chunks (permutatePure right E 32 ^^^ rk)) S)) P 32 (Or.inl hmerged)
  constructor
  · rw [apply_f]
    rw [hE]
    show permutate _ P 32 = _
    rw [hP]
    rfl
  · have h := permutatePure_lt (merge_4bit_chunks (List.zipWith substitute
      (split_6bit_chunks (permutatePure right E 32 ^^^ rk)) S)) 32 P
    exact h

/-- Splitting the Feistel loop over an appended key list. -/
theorem desRounds_append (xs ys : List Nat) : ∀ l r : Nat,
    desRounds (xs ++ ys) l r = (desRounds xs l r).bind (fun p => desRounds ys p.1 p.2) := by
  induction xs with
  | nil =>
    intro l r
    simp [desRounds]
  | cons k ks ih =>
    intro l r
    rw [List.cons_append, desRounds, desRounds]
    cases apply_f r k with
    | none => rfl
    | some f =>
      show desRounds (ks ++ ys) r (l ^^^ f) = _
      rw [ih]
      rfl

/-- Running the Feistel loop forward and then backward (reversed key order,
swapped halves) restores the swapped initial halves. -/
theorem desRounds_inv : ∀ (ks : List Nat) (l r : Nat), l < 2 ^ 32 → r < 2 ^ 32 →
    ∃ l2 r2, desRounds ks l r = some (l2, r2) ∧ l2 < 2 ^ 32 ∧ r2 < 2 ^ 32 ∧
      desRounds ks.reverse r2 l2 = some (r, l) := by
  intro ks
  induction ks with
  | nil =>
    intro l r hl hr
    exact ⟨l, r, rfl, hl, hr, rfl⟩
  | cons k ks ih =>
    intro l r hl hr
    obtain ⟨hf, hflt⟩ := apply_f_ok r k hr
    have hxor : l ^^^ applyFPure r k < 2 ^ 32 := Nat.xor_lt_two_pow hl hflt
    obtain ⟨l2, r2, hrun, h1, h2, hback⟩ := ih r (l ^^^ applyFPure r k) hr hxor
    refine ⟨l2, r2, ?_, h1, h2, ?_⟩
    · rw [desRounds, hf]
      exact hrun
    · rw [List.reverse_cons, desRounds_append, hback]
      show desRounds [k] (l ^^^ applyFPure r k) r = some (r, l)
      rw [desRounds, hf]
      show desRounds [] r ((l ^^^ applyFPure r k) ^^^ applyFPure r k) = some (r, l)
      rw [Nat.xor_cancel_right]
      rfl

/-- Shifting the starting round index commutes with iterated rotation. -/
theorem rotIter_shift (s i : Nat) : ∀ j, rotIter (rotateKeyPure s i) (i + 1) j = rotIter s i (j + 1) := by
  intro j
  induction j with
  | zero => rfl
  | succ j ih =>
    show rotateKeyPure (rotIter (rotateKeyPure s i) (i + 1) j) (i + 1 + j)
        = rotateKeyPure (rotIter s i (j + 1)) (i + (j + 1))
    rw [ih]
    congr 1
    omega

/-- The key-rotation loop succeeds from a 56-bit state and yields the
iterated pure rotations. -/
theorem keyStates_ok : ∀ (n i s : Nat), s < 2 ^ 56 → i + n ≤ 16 →
    ∃ l, keyStates s i n = some l ∧ l.length = n ∧
      (∀ m, m < n → l.getD m 0 = rotIter s i (m + 1)) ∧ (∀ x ∈ l, x < 2 ^ 56) := by
  intro n
  induction n with
  | zero =>
    intro i s hs _
    exact ⟨[], rfl, rfl, fun m hm => absurd hm (by omega), fun x hx => absurd hx (by simp)⟩
  | succ n ih =>
    intro i s hs hin
    obtain ⟨hrot, _, hlt⟩ := rotate_key_ok s i hs (by omega)
    obtain ⟨l, hl, hlen, hget, hmem⟩ := ih (i + 1) (rotateKeyPure s i) hlt (by omega)
    refine ⟨rotateKeyPure s i :: l, ?_, by simp [hlen], ?_, ?_⟩
    · rw [keyStates, hrot]
      simp only [Option.bind_eq_bind, Option.some_bind]
      rw [hl]
      rfl
    · intro m hm
      cases m with
      | zero =>
        rw [List.getD_cons_zero]
        rfl
      | succ m =>
        rw [List.getD_cons_succ, hget m (by omega), rotIter_shift]
    · intro x hx
      rcases List.mem_cons.mp hx with h | h
      · exact h ▸ hlt
      · exact hmem x h

/-- Iterated rotation from the PC-1 state is the schedule state machine. -/
theorem rotIter_schedState (k : Nat) : ∀ j, rotIter (schedState k 0) 0 j = schedState k j := by
  intro j
  induction j with
  | zero => rfl
  | succ j ih =>
    show rotateKeyPure (rotIter (schedState k 0) 0 j) (0 + j) = rotateKeyPure (schedState k j) j
    rw [ih, Nat.zero_add]

/-- Mapping PC-2 over a list of 56-bit states succeeds. -/
theorem mapM_pc2 : ∀ l : List Nat, (∀ x ∈ l, x < 2 ^ 56) →
    l.mapM (fun s => permutate s PC_2 56)
      = some (l.map (fun s => permutatePure s PC_2 56)) := by
  intro l
  induction l with
  | nil =>
    intro _
    rfl
  | cons x xs ih =>
    intro h
    rw [List.mapM_cons, permutate_ok _ _ _ (Or.inl (h x (List.mem_cons_self x xs))),
      ih (fun y hy => h y (List.mem_cons_of_mem _ hy))]
    rfl

/-- `Des::new` always succeeds and every round key is PC-2 applied to the
post-rotation 56-bit state of its round. -/
theorem desNew_ok (k : Nat) :
    ∃ rks, desNew k = some rks ∧ rks.length = 16 ∧
      (∀ m, m < 16 → rks.getD m 0 = permutatePure (schedState k (m + 1)) PC_2 56) := by
  have hs0 : permutatePure k PC_1 64 < 2 ^ 56 := by
    have h := permutatePure_lt k 64 PC_1
    exact h
  obtain ⟨l, hl, hlen, hget, hmem⟩ := keyStates_ok 16 0 (permutatePure k PC_1 64) hs0 (by omega)
  refine ⟨l.map (fun s => permutatePure s PC_2 56), ?_, by simp [hlen], ?_⟩
  · rw [desNew, permutate_ok k PC_1 64 (Or.inr (le_refl 64))]
    simp only [Option.bind_eq_bind, Option.some_bind]
    rw [hl]
    simp only [Option.bind_eq_bind, Option.some_bind]
    exact mapM_pc2 l hmem
  · intro m hm
    have hmlen : m < l.length := by omega
    have h1 : (l.map (fun s => permutatePure s PC_2 56)).getD m 0
        = permutatePure (l.getD m 0) PC_2 56 := by
      rw [List.getD_eq_getElem _ _ (by simpa using hmlen), List.getD_eq_getElem _ _ hmlen]
      simp
    rw [h1, hget m hm]
    have h2 : rotIter (permutatePure k PC_1 64) 0 (m + 1) = schedState k (m + 1) :=
      rotIter_schedState k (m + 1)
    rw [h2]

/-- Evaluating `Des::encrypt` given the result of its Feistel loop. -/
theorem desEncrypt_formula (rks : List Nat) (b l2 r2 : Nat)
    (hrun : desRounds rks (permutatePure b INITIAL_PERMUTATION 64 / 2 ^ 32)
      (permutatePure b INITIAL_PERMUTATION 64 % 2 ^ 32) = some (l2, r2))
    (h2 : l2 < 2 ^ 32) (h3 : r2 < 2 ^ 32) :
    desEncrypt rks b = some (permutatePure (r2 * 2 ^ 32 + l2) FINAL_PERMUTATION 64) := by
  have hiplt : permutatePure b INITIAL_PERMUTATION 64 < 2 ^ 64 := by
    have h := permutatePure_lt b 64 INITIAL_PERMUTATION
    exact h
  have hleft : (permutatePure b INITIAL_PERMUTATION 64 &&& MASK_LEFT_32_BIT) >>> 32
      = permutatePure b INITIAL_PERMUTATION 64 / 2 ^ 32 := by
    rw [and_mask_l32, Nat.shiftRight_eq_div_pow]
    exact Nat.mod_eq_of_lt (by omega)
  rw [desEncrypt, permutate_ok b INITIAL_PERMUTATION 64 (Or.inr (le_refl 64))]
  simp only [Option.bind_eq_bind, Option.some_bind]
  rw [hleft, and_mask_r32, hrun]
  simp only [Option.bind_eq_bind, Option.some_bind]
  rw [merge_halves_ok r2 l2 32 (by norm_num) h3 h2]
  simp only [Option.bind_eq_bind, Option.some_bind]
  rw [permutate_ok _ FINAL_PERMUTATION 64 (Or.inr (le_refl 64))]

/-- Evaluating `Des::decrypt` given the result of its (reversed) Feistel
loop. -/
theorem desDecrypt_formula (rks : List Nat) (b l2 r2 : Nat)
    (hrun : desRounds rks.reverse (permutatePure b INITIAL_PERMUTATION 64 / 2 ^ 32)
      (permutatePure b INITIAL_PERMUTATION 64 % 2 ^ 32) = some (l2, r2))
    (h2 : l2 < 2 ^ 32) (h3 : r2 < 2 ^ 32) :
    desDecrypt rks b = some (permutatePure (r2 * 2 ^ 32 + l2) FINAL_PERMUTATION 64) := by
  have hiplt : permutatePure b INITIAL_PERMUTATION 64 < 2 ^ 64 := by
    have h := permutatePure_lt b 64 INITIAL_PERMUTATION
    exact h
  have hleft : (permutatePure b INITIAL_PERMUTATION 64 &&& MASK_LEFT_32_BIT) >>> 32
      = permutatePure b INITIAL_PERMUTATION 64 / 2 ^ 32 := by
    rw [and_mask_l32, Nat.shiftRight_eq_div_pow]
    exact Nat.mod_eq_of_lt (by omega)
  rw [desDecrypt, permutate_ok b INITIAL_PERMUTATION 64 (Or.inr (le_refl 64))]
  simp only [Option.bind_eq_bind, Option.some_bind]
  rw [hleft, and_mask_r32, hrun]
  simp only [Option.bind_eq_bind, Option.some_bind]
  rw [merge_halves_ok r2 l2 32 (by norm_num) h3 h2]
  simp only [Option.bind_eq_bind, Option.some_bind]
  rw [permutate_ok _ FINAL_PERMUTATION 64 (Or.inr (le_refl 64))]

/-- Entries of the final permutation table are valid 1-based 64-bit indices. -/
theorem final_entries_valid : ∀ p ∈ FINAL_PERMUTATION, 1 ≤ p ∧ p ≤ 64 := by decide

/-- Entries of the initial permutation table are valid 1-based 64-bit
indices. -/
theorem initial_entries_valid : ∀ p ∈ INITIAL_PERMUTATION, 1 ≤ p ∧ p ≤ 64 := by decide

/-- The final table inverts the initial table position-wise. -/
theorem final_initial_inv :
    ∀ i, i < 64 → FINAL_PERMUTATION.getD (INITIAL_PERMUTATION.getD i 0 - 1) 0 = i + 1 := by
  decide

/-- The initial table inverts the final table position-wise. -/
theorem initial_final_inv :
    ∀ i, i < 64 → INITIAL_PERMUTATION.getD (FINAL_PERMUTATION.getD i 0 - 1) 0 = i + 1 := by
  decide

/-- The PRGA state transition does not depend on the processed byte. -/
theorem processByte_fst (st : Arc4) (pb : Nat) :
    (processByte st pb).1 = (processByte st 0).1 := rfl

/-- The processed byte is the input XORed with a keystream byte that
depends only on the state. -/
theorem processByte_snd (st : Arc4) (pb : Nat) :
    (processByte st pb).2 = pb ^^^ (processByte st 0).2 := by
  simp only [processByte]
  rw [Nat.zero_xor]

/-- Applying the keystream twice from the same state is the identity. -/
theorem arc4_invol : ∀ (buf : List Nat) (st : Arc4),
    (applyKeystream st (applyKeystream st buf).2).2 = buf := by
  intro buf
  induction buf with
  | nil =>
    intro st
    rfl
  | cons b bs ih =>
    intro st
    simp only [applyKeystream]
    have hst : (processByte st ((processByte st b).2)).1 = (processByte st b).1 := by
      rw [processByte_fst st ((processByte st b).2), processByte_fst st b]
    have hv : (processByte st ((processByte st b).2)).2 = b := by
      rw [processByte_snd st ((processByte st b).2), processByte_snd st b,
        Nat.xor_cancel_right]
    rw [hst, hv, ih]

/-- C1: for every 64-bit key `k` and 64-bit block `b`, the DES cipher built
from `k` satisfies `decrypt (encrypt b) = b` and `encrypt (decrypt b) = b`
(all stages, including every internal assertion, succeed). -/
theorem des_roundtrip (k b : Nat) (_hk : k < 2 ^ 64) (hb : b < 2 ^ 64) :
    ((desNew k).bind fun rks => (desEncrypt rks b).bind fun c => desDecrypt rks c)
      = some b ∧
    ((desNew k).bind fun rks => (desDecrypt rks b).bind fun p => desEncrypt rks p)
      = some b := by
  obtain ⟨rks, hnew, _, _⟩ := desNew_ok k
  have hiplt : permutatePure b INITIAL_PERMUTATION 64 < 2 ^ 64 :=
    permutatePure_lt b 64 INITIAL_PERMUTATION
  have hipeq : permutatePure b INITIAL_PERMUTATION 64 / 2 ^ 32 * 2 ^ 32
      + permutatePure b INITIAL_PERMUTATION 64 % 2 ^ 32
      = permutatePure b INITIAL_PERMUTATION 64 := by omega
  have hfinal : permutatePure (permutatePure b INITIAL_PERMUTATION 64)
      FINAL_PERMUTATION 64 = b :=
    perm_comp_inv INITIAL_PERMUTATION FINAL_PERMUTATION rfl rfl
      final_entries_valid initial_final_inv b hb
  constructor
  · obtain ⟨l2, r2, hrun, hl2, hr2, hback⟩ :=
      desRounds_inv rks (permutatePure b INITIAL_PERMUTATION 64 / 2 ^ 32)
        (permutatePure b INITIAL_PERMUTATION 64 % 2 ^ 32) (by omega) (by omega)
    have henc := desEncrypt_formula rks b l2 r2 hrun hl2 hr2
    have hmlt : r2 * 2 ^ 32 + l2 < 2 ^ 64 := by omega
    have hip2 : permutatePure (permutatePure (r2 * 2 ^ 32 + l2) FINAL_PERMUTATION 64)
        INITIAL_PERMUTATION 64 = r2 * 2 ^ 32 + l2 :=
      perm_comp_inv FINAL_PERMUTATION INITIAL_PERMUTATION rfl rfl
        initial_entries_valid final_initial_inv _ hmlt
    have hrun2 : desRounds rks.reverse
        (permutatePure (permutatePure (r2 * 2 ^ 32 + l2) FINAL_PERMUTATION 64)
          INITIAL_PERMUTATION 64 / 2 ^ 32)
        (permutatePure (permutatePure (r2 * 2 ^ 32 + l2) FINAL_PERMUTATION 64)
          INITIAL_PERMUTATION 64 % 2 ^ 32)
        = some (permutatePure b INITIAL_PERMUTATION 64 % 2 ^ 32,
            permutatePure b INITIAL_PERMUTATION 64 / 2 ^ 32) := by
      rw [hip2, show (r2 * 2 ^ 32 + l2) / 2 ^ 32 = r2 by omega,
        show (r2 * 2 ^ 32 + l2) % 2 ^ 32 = l2 by omega]
      exact hback
    have hdec := desDecrypt_formula rks
      (permutatePure (r2 * 2 ^ 32 + l2) FINAL_PERMUTATION 64) _ _ hrun2
      (by omega) (by omega)
    rw [hnew, Option.some_bind, henc, Option.some_bind, hdec, hipeq, hfinal]
  · obtain ⟨l2, r2, hrun, hl2, hr2, hback⟩ :=
      desRounds_inv rks.reverse (permutatePure b INITIAL_PERMUTATION 64 / 2 ^ 32)
        (permutatePure b INITIAL_PERMUTATION 64 % 2 ^ 32) (by omega) (by omega)
    rw [List.reverse_reverse] at hback
    have hdec := desDecrypt_formula rks b l2 r2 hrun hl2 hr2
    have hmlt : r2 * 2 ^ 32 + l2 < 2 ^ 64 := by omega
    have hip2 : permutatePure (permutatePure (r2 * 2 ^ 32 + l2) FINAL_PERMUTATION 64)
        INITIAL_PERMUTATION 64 = r2 * 2 ^ 32 + l2 :=
      perm_comp_inv FINAL_PERMUTATION INITIAL_PERMUTATION rfl rfl
        initial_entries_valid final_initial_inv _ hmlt
    have hrun2 : desRounds rks
        (permutatePure (permutatePure (r2 * 2 ^ 32 + l2) FINAL_PERMUTATION 64)
          INITIAL_PERMUTATION 64 / 2 ^ 32)
        (permutatePure (permutatePure (r2 * 2 ^ 32 + l2) FINAL_PERMUTATION 64)
          INITIAL_PERMUTATION 64 % 2 ^ 32)
        = some (permutatePure b INITIAL_PERMUTATION 64 % 2 ^ 32,
            permutatePure b INITIAL_PERMUTATION 64 / 2 ^ 32) := by
      rw [hip2, show (r2 * 2 ^ 32 + l2) / 2 ^ 32 = r2 by omega,
        show (r2 * 2 ^ 32 + l2) % 2 ^ 32 = l2 by omega]
      exact hback
    have henc := desEncrypt_formula rks
      (permutatePure (r2 * 2 ^ 32 + l2) FINAL_PERMUTATION 64) _ _ hrun2
      (by omega) (by omega)
    rw [hnew, Option.some_bind, hdec, Option.some_bind, henc, hipeq, hfinal]

/-- Witness for C1 at the repository's own test vector. -/
theorem des_roundtrip_witness :
    ((desNew 18446744073709550381).bind fun rks =>
        (desEncrypt rks 123456789101112).bind fun c => desDecrypt rks c)
      = some 123456789101112 ∧
    ((desNew 18446744073709550381).bind fun rks =>
        (desDecrypt rks 123456789101112).bind fun p => desEncrypt rks p)
      = some 123456789101112 :=
  des_roundtrip 18446744073709550381 123456789101112 (by norm_num) (by norm_num)

/-- C2: the key schedule emits exactly 16 round keys; round `m`'s key is
PC-2 of the post-rotation 56-bit state of round `m`, and the uncompressed
56-bit state (the `schedState` chain) is what carries into the next round. -/
theorem key_schedule_pc2 (k : Nat) (_hk : k < 2 ^ 64) :
    ∃ rks, desNew k = some rks ∧ rks.length = 16 ∧
      ∀ m, m < 16 → rks.getD m 0 = permutatePure (schedState k (m + 1)) PC_2 56 :=
  desNew_ok k

/-- Witness for C2 at a concrete master key. -/
theorem key_schedule_pc2_witness :
    ∃ rks, desNew 18446744073709550381 = some rks ∧ rks.length = 16 ∧
      ∀ m, m < 16 →
        rks.getD m 0 = permutatePure (schedState 18446744073709550381 (m + 1)) PC_2 56 :=
  key_schedule_pc2 18446744073709550381 (by norm_num)

/-- C3: on a 56-bit state and round `r < 16`, `rotate_key` circularly
rotates each 28-bit half left by 1 for rounds 0, 1, 8, 15 and by 2 for all
other rounds, wrapping the vacated high bits into the low end. -/
theorem rotate_key_spec (k r : Nat) (hk : k < 2 ^ 56) (hr : r < 16) :
    rotate_key k r = some
      (rotl28Spec (k / 2 ^ 28) (if r = 0 ∨ r = 1 ∨ r = 8 ∨ r = 15 then 1 else 2) * 2 ^ 28
        + rotl28Spec (k % 2 ^ 28) (if r = 0 ∨ r = 1 ∨ r = 8 ∨ r = 15 then 1 else 2)) := by
  obtain ⟨h1, h2, _⟩ := rotate_key_ok k r hk hr
  rw [h1, h2]
  rfl

/-- Witness for C3 at the repository's `test_rotate_key` vector. -/
theorem rotate_key_spec_witness :
    rotate_key 46842079712850309 3 = some
      (rotl28Spec (46842079712850309 / 2 ^ 28)
        (if (3 : Nat) = 0 ∨ (3 : Nat) = 1 ∨ (3 : Nat) = 8 ∨ (3 : Nat) = 15 then 1 else 2)
        * 2 ^ 28
        + rotl28Spec (46842079712850309 % 2 ^ 28)
          (if (3 : Nat) = 0 ∨ (3 : Nat) = 1 ∨ (3 : Nat) = 8 ∨ (3 : Nat) = 15 then 1 else 2)) :=
  rotate_key_spec 46842079712850309 3 (by norm_num) (by norm_num)

/-- C4: `permutate` fails exactly when the input value has a set bit at or
beyond the declared width, for any table of valid 1-based indices. -/
theorem permutate_width_guard (v : Nat) (tab : List Nat) (w : Nat)
    (hv : v < 2 ^ 64) (hw : w ≤ 64) (_htab : ∀ p ∈ tab, 1 ≤ p ∧ p ≤ w) :
    (permutate v tab w = none ↔ 2 ^ w ≤ v) := by
  rw [permutate]
  rcases Nat.lt_or_ge w 64 with h64 | h64
  · rw [if_pos h64]
    rcases Nat.lt_or_ge v (2 ^ w) with hvw | hvw
    · rw [if_pos hvw]
      simp
      omega
    · rw [if_neg (by omega)]
      simp
      omega
  · rw [if_neg (by omega)]
    have hww : w = 64 := by omega
    subst hww
    simp
    omega

/-- Witness for C4: a 57-bit value is rejected by a 56-bit-wide
permutation. -/
theorem permutate_width_guard_witness :
    permutate (2 ^ 56) PC_2 56 = none ↔ 2 ^ 56 ≤ 2 ^ 56 :=
  permutate_width_guard (2 ^ 56) PC_2 56 (by norm_num) (by norm_num) (by decide)

/-- C5: the initial and final permutation tables are exact bijective
inverses of each other in both directions. -/
theorem initial_final_inverse :
    (∀ i, i < 64 → FINAL_PERMUTATION.getD (INITIAL_PERMUTATION.getD i 0 - 1) 0 = i + 1) ∧
    (∀ i, i < 64 → INITIAL_PERMUTATION.getD (FINAL_PERMUTATION.getD i 0 - 1) 0 = i + 1) :=
  ⟨final_initial_inv, initial_final_inv⟩

/-- C6: `substitute` computes its row from bits 5 and 0 (bit 5 high), its
column from bits 4..1, looks up `sbox[16*row + col]`, and returns a 4-bit
value whenever the box holds 4-bit values. -/
theorem substitute_spec (chunk : Nat) (sbox : List Nat) (hc : chunk < 64)
    (hs : ∀ x ∈ sbox, x < 16) :
    substitute chunk sbox
      = sbox.getD (16 * (2 * (chunk / 32) + chunk % 2) + chunk / 2 % 16) 0 ∧
    substitute chunk sbox < 16 := by
  constructor
  · have hidx : ∀ c, c < 64 →
        16 * (((c >>> 4) &&& 2) ||| (c &&& 1)) + ((c &&& 31) >>> 1)
          = 16 * (2 * (c / 32) + c % 2) + c / 2 % 16 := by decide
    rw [substitute, hidx chunk hc]
  · exact substitute_lt chunk sbox hs

/-- Witness for C6 at the repository's `test_substitution` vector. -/
theorem substitute_spec_witness :
    substitute 27 (S.getD 4 [])
      = (S.getD 4 []).getD (16 * (2 * (27 / 32) + 27 % 2) + 27 / 2 % 16) 0 ∧
    substitute 27 (S.getD 4 []) < 16 :=
  substitute_spec 27 (S.getD 4 []) (by norm_num) (by decide)

/-- C7: splitting a `2*w`-bit value into its `w`-bit halves and merging
them back restores the value. -/
theorem split_merge_roundtrip (v w : Nat) (hw : w ≤ 32) (hv : v < 2 ^ (2 * w)) :
    merge_halves (v / 2 ^ w) (v % 2 ^ w) w = some v := by
  have hpos : 0 < 2 ^ w := Nat.pos_pow_of_pos w (by norm_num)
  have hl : v / 2 ^ w < 2 ^ w := by
    apply Nat.div_lt_of_lt_mul
    rw [two_mul, pow_add] at hv
    exact hv
  have hr : v % 2 ^ w < 2 ^ w := Nat.mod_lt _ hpos
  rw [merge_halves_ok _ _ _ hw hl hr,
    show v / 2 ^ w * 2 ^ w + v % 2 ^ w = v from by
      rw [Nat.mul_comm]
      exact Nat.div_add_mod v (2 ^ w)]

/-- Witness for C7 at the repository's `test_merge_halves` vector. -/
theorem split_merge_roundtrip_witness :
    merge_halves (0xDEADBEEF01234567 / 2 ^ 32) (0xDEADBEEF01234567 % 2 ^ 32) 32
      = some 0xDEADBEEF01234567 :=
  split_merge_roundtrip 0xDEADBEEF01234567 32 (by norm_num) (by norm_num)

/-- C8: the repository's concrete PC-1 and PC-2 test vectors. -/
theorem pc1_pc2_vectors :
    permutate 18446744073709550381 PC_1 64 = some 35888057248645119 ∧
    permutate 35888057248645119 PC_2 56 = some 272678883688445 := by
  constructor <;> decide

/-- C9: the public API is total — key-schedule construction, encryption and
decryption succeed for every 64-bit key and block; no internal width
assertion is reachable. -/
theorem des_total (k b : Nat) (_hk : k < 2 ^ 64) (_hb : b < 2 ^ 64) :
    ∃ rks, desNew k = some rks ∧ (∃ c, desEncrypt rks b = some c) ∧
      ∃ p, desDecrypt rks b = some p := by
  obtain ⟨rks, hnew, _, _⟩ := desNew_ok k
  have hiplt : permutatePure b INITIAL_PERMUTATION 64 < 2 ^ 64 :=
    permutatePure_lt b 64 INITIAL_PERMUTATION
  obtain ⟨l2, r2, hrun, hl2, hr2, _⟩ :=
    desRounds_inv rks (permutatePure b INITIAL_PERMUTATION 64 / 2 ^ 32)
      (permutatePure b INITIAL_PERMUTATION 64 % 2 ^ 32) (by omega) (by omega)
  obtain ⟨l3, r3, hrun3, hl3, hr3, _⟩ :=
    desRounds_inv rks.reverse (permutatePure b INITIAL_PERMUTATION 64 / 2 ^ 32)
      (permutatePure b INITIAL_PERMUTATION 64 % 2 ^ 32) (by omega) (by omega)
  exact ⟨rks, hnew,
    ⟨_, desEncrypt_formula rks b l2 r2 hrun hl2 hr2⟩,
    ⟨_, desDecrypt_formula rks b l3 r3 hrun3 hl3 hr3⟩⟩

/-- Witness for C9 at a concrete key and block. -/
theorem des_total_witness :
    ∃ rks, desNew 18446744073709550381 = some rks ∧
      (∃ c, desEncrypt rks 123456789101112 = some c) ∧
      ∃ p, desDecrypt rks 123456789101112 = some p :=
  des_total 18446744073709550381 123456789101112 (by norm_num) (by norm_num)

/-- C10: applying a fresh ARC4 keystream from the same non-empty key twice
restores the buffer: byte-wise XOR with an identical keystream is an
involution. -/
theorem arc4_roundtrip (key buf : List Nat) (hkey : key ≠ []) :
    ∃ st, arc4New key = some st ∧ (applyKeystream st (applyKeystream st buf).2).2 = buf := by
  refine ⟨⟨0, 0, ksaLoop ((List.range 256).map (fun i => key.getD (i % key.length) 0))
      (List.range 256) 0 0 256⟩, ?_, arc4_invol buf _⟩
  rw [arc4New, if_neg hkey]

/-- Witness for C10 at a concrete key and buffer. -/
theorem arc4_roundtrip_witness :
    ∃ st, arc4New [7] = some st ∧
      (applyKeystream st (applyKeystream st [1, 2, 3]).2).2 = [1, 2, 3] :=
  arc4_roundtrip [7] [1, 2, 3] (by simp)

end Encrust
